import Mathlib

/-!
Verification of the repa domain-decomposition library against its
specification.  The definitions below are shallow embeddings of the C++
sources (src/repa/grids/diffusion.cpp, src/repa/grids/p4est.cpp and
src/repa/grids/util/push_back_unique.hpp).  Machine doubles are modelled
as exact rationals, std::vector as List, std::unordered_map as an
association list.  MPI communication is modelled by passing the data a
rank would receive as explicit parameters.
-/

/-! ## Global box model -/

/-- Modelled from the spec: the GlobalBox component (file globox.hpp) is not
part of the provided sources; only its callers are.  Per spec section 4.2 it
is pure geometry: global cell grid dimensions, row-major linearization and
the 27-cell full-shell neighborhood under periodic wrap. -/
structure Gbox where
  gx : ℕ
  gy : ℕ
  gz : ℕ

/-- Total number of global cells, N = Gx * Gy * Gz. -/
def Gbox.ncells (B : Gbox) : ℕ := B.gx * B.gy * B.gz

/-- Periodic wrap of an integer coordinate into [0, g). -/
def wrapZ (g : ℕ) (x : ℤ) : ℕ := (x % (g : ℤ)).toNat

/-- Row-major linearization of a (periodically wrapped) coordinate triple. -/
def cellIdx3 (B : Gbox) (x y z : ℤ) : ℕ :=
  wrapZ B.gx x + B.gx * (wrapZ B.gy y + B.gy * wrapZ B.gz z)

/-- Coordinates of a global cell index (row-major). -/
def cellCoord (B : Gbox) (c : ℕ) : ℕ × ℕ × ℕ :=
  (c % B.gx, c / B.gx % B.gy, c / (B.gx * B.gy))

/-- The k-th full-shell neighbor of cell c: add the offset to the
coordinates of c and wrap periodically. -/
def neighborCell (B : Gbox) (c : ℕ) (o : ℤ × ℤ × ℤ) : ℕ :=
  cellIdx3 B (((cellCoord B c).1 : ℤ) + o.1) (((cellCoord B c).2.1 : ℤ) + o.2.1)
    (((cellCoord B c).2.2 : ℤ) + o.2.2)

/-- Modelled from the spec: the 26 non-center offsets of the full-shell
neighborhood.  The spec fixes center-first ordering (k = 0 is the cell
itself); the relative order of the remaining 26 entries is irrelevant to
every claim proved in this file, so a fixed lexicographic order is used. -/
def fsOffsets26 : List (ℤ × ℤ × ℤ) :=
  [(-1,-1,-1),(0,-1,-1),(1,-1,-1),(-1,0,-1),(0,0,-1),(1,0,-1),(-1,1,-1),(0,1,-1),(1,1,-1),
   (-1,-1,0),(0,-1,0),(1,-1,0),(-1,0,0),(1,0,0),(-1,1,0),(0,1,0),(1,1,0),
   (-1,-1,1),(0,-1,1),(1,-1,1),(-1,0,1),(0,0,1),(1,0,1),(-1,1,1),(0,1,1),(1,1,1)]

/-- All 27 full-shell offsets, center first. -/
def fsOffsets27 : List (ℤ × ℤ × ℤ) := (0, 0, 0) :: fsOffsets26

/-- gbox.full_shell_neigh(c): the 27-cell full-shell neighborhood of c
(including c itself), periodically wrapped. -/
def full_shell_neigh (B : Gbox) (c : ℕ) : List ℕ :=
  fsOffsets27.map (neighborCell B c)

/-- gbox.full_shell_neigh_without_center(c): the 26 proper neighbors. -/
def full_shell_neigh_without_center (B : Gbox) (c : ℕ) : List ℕ :=
  fsOffsets26.map (neighborCell B c)

/-! ## util::push_back_unique (src/repa/grids/util/push_back_unique.hpp) -/

/-- push_back_unique(v, val): append val only if it is not yet contained. -/
def push_back_unique {α : Type} [DecidableEq α] (v : List α) (val : α) : List α :=
  if val ∈ v then v else v ++ [val]

/-! ## Diffusion: compute_send_volume (src/repa/grids/diffusion.cpp:73) -/

/-- Embedding of compute_send_volume.  The neighbor loads communicated by
MPI_Neighbor_allgather are passed explicitly; doubles are modelled as
rationals. -/
def compute_send_volume (load : ℚ) (neighloads : List ℚ) : List ℚ :=
  let avgload : ℚ := (neighloads.foldl (· + ·) load) / (neighloads.length + 1)
  if load < avgload then
    List.replicate neighloads.length 0
  else
    let deficiency := neighloads.map (fun l => max (avgload - l) 0)
    let total_deficiency := deficiency.foldl (· + ·) 0
    deficiency.map (fun d => (load - avgload) * d / total_deficiency)

/-! ## Diffusion: clear_unknown_cell_ownership (diffusion.cpp:180) -/

/-- One loop iteration of clear_unknown_cell_ownership: erase the partition
entry of cell i if no cell of its full shell (including i itself) is owned
by the calling rank. -/
def clear_unknown_step (B : Gbox) (rank : ℤ) (p : List ℤ) (i : ℕ) : List ℤ :=
  if ∀ n ∈ full_shell_neigh B i, p.getD n (-1) ≠ rank then p.set i (-1) else p

/-- Embedding of Diffusion::clear_unknown_cell_ownership: the sequential
loop over all global cells. -/
def clear_unknown_cell_ownership (B : Gbox) (rank : ℤ) (p : List ℤ) : List ℤ :=
  (List.range p.length).foldl (clear_unknown_step B rank) p

/-! ## Diffusion: sendNeighbourhood / updateReceivedNeighbourhood
(diffusion.cpp:474 and diffusion.cpp:498) -/

/-- Wire record of the second communication step: a base cell together with
the ranks of its 26 neighbors. -/
structure NeighSend where
  basecell : ℕ
  neighranks : List ℤ
deriving DecidableEq

/-- Embedding of Diffusion::sendNeighbourhood: for every cell to be sent,
record the owner rank of each of its 26 neighbors. -/
def sendNeighbourhood (B : Gbox) (p : List ℤ) (toSend : List (List ℕ)) :
    List (List NeighSend) :=
  toSend.map (fun ts =>
    ts.map (fun c =>
      ⟨c, (full_shell_neigh_without_center B c).map (fun n => p.getD n (-1))⟩))

/-- Applying one received NeighSend record: write the transmitted ranks
into the partition vector along the 26-neighborhood of the base cell. -/
def updateOneNeigh (B : Gbox) (p : List ℤ) (ns : NeighSend) : List ℤ :=
  ((full_shell_neigh_without_center B ns.basecell).zip ns.neighranks).foldl
    (fun q nr => q.set nr.1 nr.2) p

/-- Embedding of Diffusion::updateReceivedNeighbourhood. -/
def updateReceivedNeighbourhood (B : Gbox) (p : List ℤ)
    (neighs : List (List NeighSend)) : List ℤ :=
  neighs.foldl (fun q l => l.foldl (updateOneNeigh B) q) p

/-! ## P4est / SFC strategy (src/repa/grids/p4est.cpp) -/

/-- C++ conversion of a floating value to int: truncation toward zero. -/
def cppToInt (q : ℚ) : ℤ := if 0 ≤ q then ⌊q⌋ else ⌈q⌉

/-- ROUND_ERROR_PREC, the round-off tolerance constant (machine epsilon of
a double). -/
def ROUND_ERROR_PREC : ℚ := 1 / 2 ^ 52

/-- Embedding of one axis of P4estGrid::set_optimal_cellsize (p4est.cpp:137):
ncells[d] = max(box_l[d] / max_range, 1) when max_range is large enough. -/
def set_optimal_cellsize_dim (box_l0 box_ld max_range : ℚ) : ℤ :=
  if ROUND_ERROR_PREC * box_l0 < max_range then
    max (cppToInt (box_ld / max_range)) 1
  else 1

/-- Embedding of the cell-to-rank assignment of P4estGrid::repartition
(p4est.cpp:486-506).  The global Morton-ordered weight list is folded from
the left; the accumulator plays the role of the MPI_Exscan result followed
by the local std::accumulate, so entry i is computed from the exclusive
prefix sum of all weights before i.  Each cell is assigned to process
min(int(prefix / target), nprocs - 1) with target = total / nprocs. -/
def sfc_assign (weights : List ℚ) (nprocs : ℕ) : List ℤ :=
  let total : ℚ := weights.foldl (· + ·) 0
  let target : ℚ := total / (nprocs : ℚ)
  (weights.foldl
    (fun (acc : ℚ × List ℤ) w =>
      (acc.1 + w, acc.2 ++ [min (cppToInt (acc.1 / target)) ((nprocs : ℤ) - 1)]))
    ((0 : ℚ), ([] : List ℤ))).2

/-- Result of a call to P4estGrid::neighbor_rank: either the domain_error
throw, a returned value, or an out-of-bounds vector access. -/
inductive NeighborRankResult where
  | thrown : NeighborRankResult
  | value : ℤ → NeighborRankResult
  | oob : NeighborRankResult
deriving DecidableEq

/-- Embedding of P4estGrid::neighbor_rank (p4est.cpp:378): the guard is
"i < 0 || i > m_neighranks.size()" (note: strictly greater), after which
m_neighranks[i] is accessed. -/
def neighbor_rank (neighranks : List ℤ) (i : ℤ) : NeighborRankResult :=
  if i < 0 ∨ (neighranks.length : ℤ) < i then .thrown
  else
    match neighranks.get? i.toNat with
    | some r => .value r
    | none => .oob

/-! ## Diffusion: reinit (diffusion.cpp:515) -/

/-- Association list in insertion order modelling std::unordered_map. -/
def alookup (m : List (ℕ × ℕ)) (k : ℕ) : Option ℕ :=
  (m.find? (fun pr => pr.1 == k)).map Prod.snd

/-- Enumeration of a list with indices starting at s, as an association
list from element to index. -/
def enumIdx {α : Type} (l : List α) (s : ℕ) : List (α × ℕ) :=
  match l with
  | [] => []
  | a :: t => (a, s) :: enumIdx t (s + 1)

/-- A ghost exchange descriptor (pargrid.hpp): destination rank, receive
list and send list.  During construction the lists hold global indices;
the emitted descriptors hold local/ghost indices. -/
structure ExDesc where
  dest : ℤ
  recv : List ℕ
  send : List ℕ
deriving DecidableEq

/-- The default-constructed GhostExchangeDesc has dest = -1. -/
def ExDesc.empty : ExDesc := ⟨-1, [], []⟩

/-- Pointwise update of the tmp_ex_descs table (indexed by rank). -/
def updT (t : ℤ → ExDesc) (r : ℤ) (f : ExDesc → ExDesc) : ℤ → ExDesc :=
  fun x => if x = r then f (t x) else t x

/-- State of the first reinit loop (extraction of local cells). -/
structure R1State where
  partition : List ℤ
  cells : List ℕ
  g2l : List (ℕ × ℕ)
  localCells : ℕ

/-- One iteration of the first reinit loop (diffusion.cpp:528-547): a cell
owned by this rank becomes the next local cell; otherwise, unless
constructing, a known entry whose full shell does not touch this rank is
erased to UNKNOWN. -/
def r1step (B : Gbox) (rank : ℤ) (init : Bool) (s : R1State) (i : ℕ) : R1State :=
  if s.partition.getD i (-1) = rank then
    { s with cells := s.cells ++ [i],
             g2l := s.g2l ++ [(i, s.localCells)],
             localCells := s.localCells + 1 }
  else if init = false ∧ s.partition.getD i (-1) ≠ -1 then
    if ∀ n ∈ full_shell_neigh B i, s.partition.getD n (-1) ≠ rank then
      { s with partition := s.partition.set i (-1) }
    else s
  else s

/-- State of the second reinit loop (ghost discovery, diffusion.cpp:555). -/
structure R2State where
  cells : List ℕ
  g2l : List (ℕ × ℕ)
  ghostCells : ℕ
  borderCells : List ℕ
  bcn : ℕ → List ℤ
  neighbors : List ℤ
  tmp : ℤ → ExDesc

/-- The border-cell bookkeeping of the innermost reinit loop
(diffusion.cpp:562-565): mark the i-th local cell as border cell (once)
and record the foreign owner among its neighbor ranks. -/
def r2border (i : ℕ) (owner : ℤ) (s : R2State) : R2State :=
  { s with
    borderCells :=
      if s.borderCells.getLast? = some i then s.borderCells
      else s.borderCells ++ [i],
    bcn := fun j => if j = i then push_back_unique (s.bcn i) owner else s.bcn j }

/-- The ghost-discovery step (diffusion.cpp:567-578): a neighbor cell not
yet known to the global-to-local table becomes the next ghost cell. -/
def r2ghost (localCells : ℕ) (n : ℕ) (s : R2State) : R2State :=
  if alookup s.g2l n = none then
    { s with cells := s.cells ++ [n],
             g2l := s.g2l ++ [(n, localCells + s.ghostCells)],
             ghostCells := s.ghostCells + 1 }
  else s

/-- The exchange-descriptor update (diffusion.cpp:580-587): initialize the
descriptor of the owner rank on first contact, then record the ghost cell
in its recv set and the local cell in its send set (each only once). -/
def r2desc (owner : ℤ) (n c : ℕ) (s : R2State) : R2State :=
  let s :=
    if (s.tmp owner).dest = -1 then
      { s with neighbors := s.neighbors ++ [owner],
               tmp := updT s.tmp owner (fun d => { d with dest := owner }) }
    else s
  let f : ExDesc → ExDesc := fun d =>
    { d with recv := push_back_unique d.recv n,
             send := push_back_unique d.send c }
  { s with tmp := updT s.tmp owner f }

/-- Body of the innermost reinit loop (diffusion.cpp:556-588) processing
neighbor cell n of the i-th local cell c. -/
def r2inner (rank : ℤ) (partition : List ℤ) (localCells : ℕ) (i : ℕ) (c : ℕ)
    (s : R2State) (n : ℕ) : R2State :=
  let owner := partition.getD n (-1)
  if owner = rank then s
  else r2desc owner n c (r2ghost localCells n (r2border i owner s))

/-- The third reinit phase (diffusion.cpp:593-611): emit descriptors in
ascending rank order; sort each recv and send list by global cell index,
then convert globals to local/ghost indices via the global-to-local map. -/
def buildExchange (nprocs : ℕ) (tmp : ℤ → ExDesc) (g2l : List (ℕ × ℕ)) :
    List ExDesc :=
  (List.range nprocs).filterMap (fun (r : ℕ) =>
    let d := tmp (r : ℤ)
    if d.dest = -1 then none
    else some
      { dest := d.dest,
        recv := (List.insertionSort (· ≤ ·) d.recv).map
          (fun g => (alookup g2l g).getD 0),
        send := (List.insertionSort (· ≤ ·) d.send).map
          (fun g => (alookup g2l g).getD 0) })

/-- The rebuilt per-rank grid state after reinit. -/
structure DiffState where
  partition : List ℤ
  localCells : ℕ
  ghostCells : ℕ
  cells : List ℕ
  g2l : List (ℕ × ℕ)
  neighbors : List ℤ
  borderCells : List ℕ
  bcn : ℕ → List ℤ
  exchangeVector : List ExDesc

/-- Embedding of Diffusion::reinit: extract local cells (also erasing stale
ownership when not constructing), discover ghost cells and communication
volumes, and emit the exchange descriptors. -/
def reinit (B : Gbox) (rank : ℤ) (nprocs : ℕ) (init : Bool)
    (partition : List ℤ) : DiffState :=
  let s1 := (List.range partition.length).foldl (r1step B rank init)
    ⟨partition, [], [], 0⟩
  let s2 := (enumIdx s1.cells 0).foldl
    (fun s ci =>
      (full_shell_neigh_without_center B ci.1).foldl
        (r2inner rank s1.partition s1.localCells ci.2 ci.1) s)
    ⟨s1.cells, s1.g2l, 0, [], fun _ => [], [], fun _ => ExDesc.empty⟩
  { partition := s1.partition,
    localCells := s1.localCells,
    ghostCells := s2.ghostCells,
    cells := s2.cells,
    g2l := s2.g2l,
    neighbors := s2.neighbors,
    borderCells := s2.borderCells,
    bcn := s2.bcn,
    exchangeVector := buildExchange nprocs s2.tmp s2.g2l }

/-! ## Diffusion: compute_send_list (diffusion.cpp:416) -/

/-- Lexicographic order on the (27 - nadditional_comm, profit, cellidx)
tuples of compute_send_list, as std::tuple::operator< compares. -/
def tripLe (a b : ℕ × ℚ × ℕ) : Prop :=
  a.1 < b.1 ∨ (a.1 = b.1 ∧ (a.2.1 < b.2.1 ∨ (a.2.1 = b.2.1 ∧ a.2.2 ≤ b.2.2)))

instance : DecidableRel tripLe := fun a b => by
  unfold tripLe; infer_instance

/-- Inner loop of compute_send_list (diffusion.cpp:456-468): hand the cell
to the first neighbor in its owner set whose remaining send budget admits
the cell's weight. -/
def tryAssign (w : ℚ) (neighbors : List ℤ) (owners : List ℤ)
    (sl : List ℚ) (ts : List (List ℕ)) (gcell : ℕ) :
    List ℚ × List (List ℕ) :=
  match owners with
  | [] => (sl, ts)
  | nr :: rest =>
    let ni := neighbors.indexOf nr
    if w ≤ sl.getD ni 0 then
      (sl.set ni (sl.getD ni 0 - w), ts.set ni (ts.getD ni [] ++ [gcell]))
    else tryAssign w neighbors rest sl ts gcell

/-- Embedding of Diffusion::compute_send_list.  The C++ code pops a maxheap
until empty, always extracting a maximal tuple; the pop order of tied
tuples is unspecified by std::make_heap, modelled here as a descending
stable sort. -/
def compute_send_list (B : Gbox) (rank : ℤ) (partition : List ℤ)
    (st : DiffState) (weights : List ℚ) (send_loads : List ℚ) :
    List (List ℕ) :=
  let plist : List (ℕ × ℚ × ℕ) := st.borderCells.filterMap (fun b =>
    let profit := weights.getD b 0
    let nadd := ((full_shell_neigh_without_center B (st.cells.getD b 0)).filter
      (fun n => decide (partition.getD n (-1) = rank ∧
        (alookup st.g2l n).getD 0 ∈ st.borderCells))).length
    if 0 < profit then some (27 - nadd, profit, b) else none)
  let sorted := List.insertionSort (fun a b => tripLe b a) plist
  (sorted.foldl
    (fun (acc : List ℚ × List (List ℕ)) t =>
      tryAssign (weights.getD t.2.2 0) st.neighbors (st.bcn t.2.2)
        acc.1 acc.2 (st.cells.getD t.2.2 0))
    (send_loads, List.replicate send_loads.length [])).2

/-! ## Diffusion: repartition (diffusion.cpp:194) -/

/-- fill_index_range applied per neighbor (diffusion.cpp:257-260): set the
partition entry of every cell chosen for neighbor i to neighbors[i]. -/
def applyToSend (p : List ℤ) (toSend : List (List ℕ)) (neighbors : List ℤ) :
    List ℤ :=
  ((toSend.zip neighbors).foldl
    (fun q pr => pr.1.foldl (fun q' c => q'.set c pr.2) q) p)

/-- Write value v at int index i of the partition (fill_index_range for
received messages; indices are always valid cell ids in real runs). -/
def setCellZ (p : List ℤ) (i : ℤ) (v : ℤ) : List ℤ :=
  if 0 ≤ i then p.set i.toNat v else p

/-- First communication step, receive side (diffusion.cpp:315-324): each
inner message carries the target rank as its last element; pop it and set
the partition entry of every carried cell to that target. -/
def applyReceivedCells (p : List ℤ) (received : List (List (List ℤ))) :
    List ℤ :=
  received.foldl
    (fun q from_msgs =>
      from_msgs.foldl
        (fun q' msg =>
          let target := msg.getLastD (-1)
          msg.dropLast.foldl (fun q'' c => setCellZ q'' c target) q')
        q)
    p

/-- Embedding of one call to Diffusion::repartition on a single rank.  All
data received through MPI (neighbor loads of the allgather, the messages
of the two point-to-point steps) is passed explicitly; the send side of
the communication does not alter local state.  The C++ function ends with
an unconditional "return true" (diffusion.cpp:391). -/
def diffusion_repartition (B : Gbox) (rank : ℤ) (nprocs : ℕ) (st : DiffState)
    (weights : List ℚ) (neighloads : List ℚ)
    (received_cells : List (List (List ℤ)))
    (received_neigh : List (List NeighSend)) : DiffState × Bool :=
  let p := clear_unknown_cell_ownership B rank st.partition
  let local_load : ℚ := weights.foldl (· + ·) 0
  let send_volume := compute_send_volume local_load neighloads
  let toSend :=
    if send_volume.any (fun d => decide (0 < d)) then
      compute_send_list B rank p st weights send_volume
    else List.replicate st.neighbors.length []
  let p := applyToSend p toSend st.neighbors
  let p := applyReceivedCells p received_cells
  let p := updateReceivedNeighbourhood B p received_neigh
  let st' := reinit B rank nprocs false p
  (st', true)

/-- Embedding of the Diffusion constructor (diffusion.cpp:396): linear
initial assignment partition[i] = i * nprocs / nglocells, then reinit with
init = true. -/
def diffusion_construct (B : Gbox) (rank : ℤ) (nprocs : ℕ) : DiffState :=
  reinit B rank nprocs true
    ((List.range B.ncells).map (fun i => ((i * nprocs / B.ncells : ℕ) : ℤ)))

/-! ## Spec-side comparison definitions (named after the claims' wording) -/

/-- The spec's average load: mean of the local load and the neighbor loads. -/
def specAvg (load : ℚ) (nl : List ℚ) : ℚ := (load + nl.sum) / (nl.length + 1)

/-- The spec's send volume to neighbor i on an overloaded process:
(L - avg) * max(avg - L_i, 0) divided by the total deficiency. -/
def specSendVolume (load : ℚ) (nl : List ℚ) (i : ℕ) : ℚ :=
  (load - specAvg load nl) * max (specAvg load nl - nl.getD i 0) 0 /
    (nl.map (fun l => max (specAvg load nl - l) 0)).sum

/-- The spec's SFC rank assignment for cell i:
min(nprocs - 1, floor(prefix(i) / target)) with target = total / nprocs. -/
def specSfcRank (weights : List ℚ) (nprocs : ℕ) (i : ℕ) : ℤ :=
  min ((nprocs : ℤ) - 1) ⌊(weights.take i).sum / (weights.sum / (nprocs : ℚ))⌋

/-- A 2 x 2 x 2 global box used for concrete instances. -/
def B222 : Gbox := ⟨2, 2, 2⟩

/-! ## Invariants used to verify reinit -/

/-- Invariant of the first reinit loop after processing cells [0, m). -/
def R1Inv (rank : ℤ) (p : List ℤ) (m : ℕ) (s : R1State) : Prop :=
  s.partition.length = p.length ∧
  s.localCells = s.cells.length ∧
  s.g2l = enumIdx s.cells 0 ∧
  s.cells.Nodup ∧
  (∀ c ∈ s.cells, c < m ∧ s.partition.getD c (-1) = rank)

/-- Invariant of the second reinit loop (ghost discovery), relative to the
local-cell list and the partition produced by the first loop. -/
def R2Inv (rank : ℤ) (part : List ℤ) (locals : List ℕ) (s : R2State) : Prop :=
  (∃ gh, s.cells = locals ++ gh ∧ ∀ g ∈ gh, part.getD g (-1) ≠ rank) ∧
  s.g2l = enumIdx s.cells 0 ∧
  s.cells.Nodup ∧
  locals.length + s.ghostCells = s.cells.length ∧
  (∀ r, (s.tmp r).dest = -1 ∨ (s.tmp r).dest = r) ∧
  (∀ r, (∀ c ∈ (s.tmp r).send, c ∈ locals) ∧ (s.tmp r).send.Nodup) ∧
  (∀ r, (∀ g ∈ (s.tmp r).recv,
      g ∈ s.cells ∧ part.getD g (-1) = r ∧ part.getD g (-1) ≠ rank) ∧
    (s.tmp r).recv.Nodup)

/-! ## Generic list lemmas -/

theorem foldl_add_eq_add_sum (l : List ℚ) (a : ℚ) : l.foldl (· + ·) a = a + l.sum := by
  induction l generalizing a with
  | nil => simp
  | cons x t ih => simp only [List.foldl_cons, List.sum_cons, ih]; ring

theorem set_getD_self (p : List ℤ) (n : ℕ) (d : ℤ) : p.set n (p.getD n d) = p := by
  induction p generalizing n with
  | nil => simp
  | cons a t ih =>
    cases n with
    | zero => simp [List.getD]
    | succ m => simp only [List.set_cons_succ, List.getD_cons_succ, ih]

/-! ## C9: P4estGrid::neighbor_rank bounds check -/

/-- C9: the bounds guard of P4estGrid::neighbor_rank uses "i >
m_neighranks.size()" instead of ">=".  With one stored neighbor, the call
with i = 1 (= n_neighbors()) is not rejected and reads m_neighranks[1] out
of bounds instead of throwing std::domain_error. -/
theorem p4est_neighbor_rank_offbyone :
    neighbor_rank [5] 1 = NeighborRankResult.oob ∧
    neighbor_rank [5] 1 ≠ NeighborRankResult.thrown ∧
    neighbor_rank [5] 2 = NeighborRankResult.thrown ∧
    neighbor_rank [5] (-1) = NeighborRankResult.thrown ∧
    neighbor_rank [5] 0 = NeighborRankResult.value 5 := by
  refine ⟨rfl, by decide, rfl, rfl, rfl⟩

/-! ## C10: sendNeighbourhood / updateReceivedNeighbourhood round trip -/

theorem updateOneNeigh_self (B : Gbox) (p : List ℤ) (c : ℕ) :
    updateOneNeigh B p
      ⟨c, (full_shell_neigh_without_center B c).map (fun n => p.getD n (-1))⟩ = p := by
  unfold updateOneNeigh
  generalize full_shell_neigh_without_center B c = l
  induction l with
  | nil => rfl
  | cons a t ih =>
    simp only [List.map_cons, List.zip_cons_cons, List.foldl_cons, set_getD_self]
    exact ih

theorem updateReceived_inner_self (B : Gbox) (p : List ℤ) (ts : List ℕ) :
    (ts.map (fun c =>
      (⟨c, (full_shell_neigh_without_center B c).map (fun n => p.getD n (-1))⟩ :
        NeighSend))).foldl (updateOneNeigh B) p = p := by
  induction ts with
  | nil => rfl
  | cons c t ih =>
    simp only [List.map_cons, List.foldl_cons, updateOneNeigh_self]
    exact ih

/-- C10: applying Diffusion::updateReceivedNeighbourhood to the output of
Diffusion::sendNeighbourhood on the same partition vector leaves the
partition pointwise unchanged: the encode-then-apply round trip is the
identity (no in-range hypothesis is even needed). -/
theorem diffusion_neighbourhood_roundtrip (B : Gbox) (p : List ℤ)
    (toSend : List (List ℕ)) :
    updateReceivedNeighbourhood B p (sendNeighbourhood B p toSend) = p := by
  unfold updateReceivedNeighbourhood sendNeighbourhood
  induction toSend with
  | nil => rfl
  | cons ts rest ih =>
    simp only [List.map_cons, List.foldl_cons, updateReceived_inner_self]
    exact ih

/-! ## C2: compute_send_volume against the spec's formula -/

theorem getD_map_of_lt {α β : Type} [Inhabited β] (f : α → β) (l : List α)
    (i : ℕ) (h : i < l.length) (d : α) (d' : β) :
    (l.map f).getD i d' = f (l.getD i d) := by
  induction l generalizing i with
  | nil => simp at h
  | cons a t ih =>
    cases i with
    | zero => simp [List.getD]
    | succ m =>
      simp only [List.map_cons, List.getD_cons_succ]
      exact ih m (by simpa using h)

/-- C2: compute_send_volume realizes exactly the spec's send-volume
formula.  With avg the mean of the local load and the k neighbor loads:
if load < avg the result is the all-zero vector of length k, and
otherwise entry n is (load - avg) * max(avg - L_n, 0) / sum of
deficiencies.  (When every deficiency is zero, both the code and the
formula divide zero by zero, which the rational model maps to zero.) -/
theorem compute_send_volume_correct (load : ℚ) (nl : List ℚ) :
    (compute_send_volume load nl).length = nl.length ∧
    (load < specAvg load nl →
      compute_send_volume load nl = List.replicate nl.length 0) ∧
    (¬ load < specAvg load nl →
      ∀ i, i < nl.length →
        (compute_send_volume load nl).getD i 0 = specSendVolume load nl i) := by
  have havg : (nl.foldl (· + ·) load) / ((nl.length : ℚ) + 1) = specAvg load nl := by
    rw [foldl_add_eq_add_sum, specAvg]
  unfold compute_send_volume
  rw [havg]
  by_cases hlt : load < specAvg load nl
  · rw [if_pos hlt]
    exact ⟨by simp, fun _ => rfl, fun h => absurd hlt h⟩
  · rw [if_neg hlt]
    refine ⟨by simp, fun h => absurd h hlt, fun _ i hi => ?_⟩
    rw [getD_map_of_lt _ _ i (by simpa using hi) 0 0,
        getD_map_of_lt _ _ i hi 0 0]
    unfold specSendVolume
    congr 1
    rw [foldl_add_eq_add_sum]
    ring

theorem compute_send_volume_correct_witness :
    ¬ ((4 : ℚ) < specAvg 4 [0, 2]) ∧ (0 : ℕ) < 2 ∧
    (compute_send_volume 4 [0, 2]).getD 0 0 = specSendVolume 4 [0, 2] 0 := by
  have h : ¬ ((4 : ℚ) < specAvg 4 [0, 2]) := by norm_num [specAvg]
  exact ⟨h, by decide, (compute_send_volume_correct 4 [0, 2]).2.2 h 0 (by decide)⟩

/-! ## C3: the SFC cell-to-rank assignment -/

theorem sfc_fold_charact (f : ℚ → ℤ) :
    ∀ (ws : List ℚ) (p0 : ℚ) (out : List ℤ),
      (ws.foldl (fun (acc : ℚ × List ℤ) w => (acc.1 + w, acc.2 ++ [f acc.1]))
        (p0, out)).2
      = out ++ (List.range ws.length).map (fun j => f (p0 + (ws.take j).sum)) := by
  intro ws
  induction ws with
  | nil => intro p0 out; simp
  | cons w t ih =>
    intro p0 out
    simp only [List.foldl_cons, List.length_cons]
    rw [ih]
    rw [List.range_succ_eq_map, List.map_cons, List.map_map, List.append_assoc,
        List.singleton_append]
    congr 1
    congr 1
    · simp
    apply List.map_congr_left
    intro j _
    simp only [Function.comp_apply, List.take_succ_cons, List.sum_cons]
    rw [add_assoc]

theorem getD_map_range {β : Type} [Inhabited β] (g : ℕ → β) (n i : ℕ)
    (h : i < n) (d : β) : ((List.range n).map g).getD i d = g i := by
  rw [List.getD_eq_getElem _ _ (by simpa using h)]
  simp

/-- C3: for non-negative weights, P4estGrid::repartition assigns cell i to
rank min(nprocs - 1, floor(prefix(i) / target)) where prefix(i) is the
exclusive prefix sum of the weights before i in Morton order and
target = total / nprocs. -/
theorem sfc_assign_eq_map (weights : List ℚ) (nprocs : ℕ) :
    sfc_assign weights nprocs = (List.range weights.length).map
      (fun j => min (cppToInt ((weights.take j).sum /
          (weights.foldl (· + ·) 0 / (nprocs : ℚ)))) ((nprocs : ℤ) - 1)) := by
  unfold sfc_assign
  have h := sfc_fold_charact
    (fun x => min (cppToInt (x / (weights.foldl (· + ·) 0 / (nprocs : ℚ))))
      ((nprocs : ℤ) - 1)) weights 0 []
  simpa using h

/-- C3: for non-negative weights, P4estGrid::repartition assigns cell i to
rank min(nprocs - 1, floor(prefix(i) / target)) where prefix(i) is the
exclusive prefix sum of the weights before i in Morton order and
target = total / nprocs. -/
theorem sfc_assign_correct (weights : List ℚ) (nprocs : ℕ)
    (hw : ∀ w ∈ weights, 0 ≤ w) :
    (sfc_assign weights nprocs).length = weights.length ∧
    ∀ i, i < weights.length →
      (sfc_assign weights nprocs).getD i 0 = specSfcRank weights nprocs i := by
  rw [sfc_assign_eq_map]
  constructor
  · simp
  intro i hi
  rw [getD_map_range _ _ i hi 0]
  have hpre : 0 ≤ (weights.take i).sum :=
    List.sum_nonneg (fun w hwmem => hw w (List.mem_of_mem_take hwmem))
  have htgt : 0 ≤ weights.foldl (· + ·) 0 / (nprocs : ℚ) := by
    rw [foldl_add_eq_add_sum, zero_add]
    exact div_nonneg (List.sum_nonneg hw) (by positivity)
  have hq : 0 ≤ (weights.take i).sum / (weights.foldl (· + ·) 0 / (nprocs : ℚ)) :=
    div_nonneg hpre htgt
  rw [cppToInt, if_pos hq]
  unfold specSfcRank
  rw [foldl_add_eq_add_sum, zero_add, min_comm]

theorem sfc_assign_correct_witness :
    (∀ w ∈ [(1 : ℚ), 1, 1, 1], 0 ≤ w) ∧ (1 : ℕ) < 4 ∧
    (sfc_assign [(1 : ℚ), 1, 1, 1] 2).getD 1 0 = specSfcRank [(1 : ℚ), 1, 1, 1] 2 1 := by
  have hw : ∀ w ∈ [(1 : ℚ), 1, 1, 1], 0 ≤ w := by
    intro w hwm
    simp only [List.mem_cons, List.not_mem_nil, or_false] at hwm
    rcases hwm with h | h | h | h <;> rw [h] <;> norm_num
  exact ⟨hw, by decide, (sfc_assign_correct [(1 : ℚ), 1, 1, 1] 2 hw).2 1 (by decide)⟩

/-! ## C7: SFC assignment under a constant metric -/

theorem sfc_assign_replicate (N P : ℕ) (w : ℚ) (hw : 0 < w) :
    sfc_assign (List.replicate N w) P =
      (List.range N).map (fun (j : ℕ) => min (cppToInt ((j : ℚ) * P / N)) ((P : ℤ) - 1)) := by
  rw [sfc_assign_eq_map]
  simp only [List.length_replicate]
  apply List.map_congr_left
  intro j hj
  have hjN : j < N := List.mem_range.mp hj
  have hN : (0 : ℚ) < (N : ℚ) := by exact_mod_cast (Nat.zero_le j).trans_lt hjN
  have hsum : ((List.replicate N w).take j).sum = (j : ℚ) * w := by
    rw [List.take_replicate, min_eq_left (le_of_lt hjN), List.sum_replicate,
        nsmul_eq_mul]
  have hfold : (List.replicate N w).foldl (· + ·) 0 = (N : ℚ) * w := by
    rw [foldl_add_eq_add_sum, zero_add, List.sum_replicate, nsmul_eq_mul]
  rw [hsum, hfold]
  congr 2
  by_cases hP : (P : ℚ) = 0
  · rw [hP, div_zero, div_zero, mul_zero, zero_div]
  · have hw' : w ≠ 0 := ne_of_gt hw
    have hN' : (N : ℚ) ≠ 0 := ne_of_gt hN
    rw [div_div_eq_mul_div]
    field_simp
    ring

/-- C7: with a constant positive per-cell weight, the SFC rank assignment
depends only on the cell count and nprocs; in particular a second
repartition call with the same constant metric reproduces the first
assignment exactly, changing zero cells. -/
theorem sfc_assign_constant_metric_independent (N P : ℕ) (w₁ w₂ : ℚ)
    (h₁ : 0 < w₁) (h₂ : 0 < w₂) :
    sfc_assign (List.replicate N w₁) P = sfc_assign (List.replicate N w₂) P := by
  rw [sfc_assign_replicate N P w₁ h₁, sfc_assign_replicate N P w₂ h₂]

theorem sfc_assign_constant_metric_independent_witness :
    (0 : ℚ) < 1 ∧ (0 : ℚ) < 5 ∧
    sfc_assign (List.replicate 4 (1 : ℚ)) 2 = sfc_assign (List.replicate 4 (5 : ℚ)) 2 := by
  exact ⟨by norm_num, by norm_num,
    sfc_assign_constant_metric_independent 4 2 1 5 (by norm_num) (by norm_num)⟩

/-! ## C8: the (16,16,16) box with min_cell_size 2 on 4 ranks -/

set_option maxRecDepth 8192

theorem sfc_assign_512_ones_eval :
    sfc_assign (List.replicate 512 (1 : ℚ)) 4 =
      (List.range 512).map (fun (j : ℕ) => ((j / 128 : ℕ) : ℤ)) := by
  rw [sfc_assign_replicate 512 4 1 one_pos]
  apply List.map_congr_left
  intro j hj
  have hj512 : j < 512 := List.mem_range.mp hj
  have h2 : cppToInt ((j : ℚ) * ((4 : ℕ) : ℚ) / ((512 : ℕ) : ℚ)) = ((j / 128 : ℕ) : ℤ) := by
    have hq : ((j : ℚ) * ((4 : ℕ) : ℚ) / ((512 : ℕ) : ℚ)) = (j : ℚ) / ((128 : ℕ) : ℚ) := by
      push_cast; ring
    rw [cppToInt, if_pos (by rw [hq]; positivity), hq,
        ← Int.natCast_floor_eq_floor (by positivity), Nat.floor_div_eq_div]
  rw [h2]
  omega

theorem set_optimal_cellsize_16_2 : set_optimal_cellsize_dim 16 16 2 = 8 := by
  rw [set_optimal_cellsize_dim, if_pos (by rw [ROUND_ERROR_PREC]; norm_num)]
  have h : (16 : ℚ) / 2 = ((8 : ℕ) : ℚ) := by norm_num
  rw [cppToInt, if_pos (by norm_num), h, Int.floor_natCast]
  norm_num

/-- C8 counterexample: with box (16,16,16) and min_cell_size = 2 the derived
grid has floor(16/2) = 8 cells per axis, hence 512 cells in total, and the
SFC assignment with unit weights on 4 ranks gives rank 0 exactly 128 local
cells -- not the 1024 = 4096/4 the claim states. -/
theorem sfc_grid16_rank0_not_1024 :
    set_optimal_cellsize_dim 16 16 2 = 8 ∧
    (8 : ℕ) * 8 * 8 = 512 ∧
    (sfc_assign (List.replicate 512 (1 : ℚ)) 4).count 0 = 128 ∧
    (128 : ℕ) ≠ 1024 := by
  refine ⟨set_optimal_cellsize_16_2, by norm_num, ?_, by norm_num⟩
  rw [sfc_assign_512_ones_eval]
  decide

/-- C8 amended: box (16,16,16) with min_cell_size = 2 yields an 8 x 8 x 8
grid of 512 cells; the SFC strategy on 4 ranks with the all-ones metric
gives every rank exactly 512/4 = 128 local cells. -/
theorem sfc_grid16_each_rank_128 :
    set_optimal_cellsize_dim 16 16 2 = 8 ∧
    (8 : ℕ) * 8 * 8 = 512 ∧
    (sfc_assign (List.replicate 512 (1 : ℚ)) 4).count 0 = 128 ∧
    (sfc_assign (List.replicate 512 (1 : ℚ)) 4).count 1 = 128 ∧
    (sfc_assign (List.replicate 512 (1 : ℚ)) 4).count 2 = 128 ∧
    (sfc_assign (List.replicate 512 (1 : ℚ)) 4).count 3 = 128 := by
  rw [sfc_assign_512_ones_eval]
  exact ⟨set_optimal_cellsize_16_2, by norm_num, by decide, by decide, by decide, by decide⟩

/-! ## C6: clear_unknown_cell_ownership -/

theorem wrapZ_coe (g a : ℕ) (h : a < g) : wrapZ g (a : ℤ) = a := by
  rw [wrapZ, Int.emod_eq_of_lt (Int.natCast_nonneg a) (by exact_mod_cast h)]
  exact Int.toNat_natCast a

theorem neighborCell_center (B : Gbox) (hgx : 0 < B.gx) (hgy : 0 < B.gy)
    (hgz : 0 < B.gz) (i : ℕ) (hi : i < B.ncells) :
    neighborCell B i (0, 0, 0) = i := by
  unfold neighborCell cellIdx3 cellCoord
  simp only [add_zero]
  rw [wrapZ_coe _ _ (Nat.mod_lt _ hgx), wrapZ_coe _ _ (Nat.mod_lt _ hgy),
      wrapZ_coe _ _ ((Nat.div_lt_iff_lt_mul (Nat.mul_pos hgx hgy)).mpr
        (by rw [mul_comm]; exact hi))]
  rw [← Nat.div_div_eq_div_mul, Nat.mod_add_div (i / B.gx) B.gy,
      Nat.mod_add_div i B.gx]

theorem mem_full_shell_center (B : Gbox) (hgx : 0 < B.gx) (hgy : 0 < B.gy)
    (hgz : 0 < B.gz) (i : ℕ) (hi : i < B.ncells) :
    i ∈ full_shell_neigh B i := by
  rw [full_shell_neigh, fsOffsets27, List.map_cons,
      neighborCell_center B hgx hgy hgz i hi]
  exact List.mem_cons_self _ _

theorem getD_set_self (l : List ℤ) (n : ℕ) (v d : ℤ) (h : n < l.length) :
    (l.set n v).getD n d = v := by
  induction l generalizing n with
  | nil => simp at h
  | cons a t ih =>
    cases n with
    | zero => rfl
    | succ m =>
      simp only [List.set_cons_succ, List.getD_cons_succ]
      exact ih m (by simpa using h)

theorem getD_set_ne (l : List ℤ) (n m : ℕ) (v d : ℤ) (h : n ≠ m) :
    (l.set n v).getD m d = l.getD m d := by
  induction l generalizing n m with
  | nil => rfl
  | cons a t ih =>
    cases n with
    | zero =>
      cases m with
      | zero => exact absurd rfl h
      | succ k => rfl
    | succ n' =>
      cases m with
      | zero => rfl
      | succ k =>
        simp only [List.set_cons_succ, List.getD_cons_succ]
        exact ih n' k (fun he => h (by rw [he]))

theorem clear_unknown_step_length (B : Gbox) (rank : ℤ) (q : List ℤ) (i : ℕ) :
    (clear_unknown_step B rank q i).length = q.length := by
  rw [clear_unknown_step]
  split
  · exact List.length_set q i (-1)
  · rfl

theorem clear_unknown_fold_charact (B : Gbox) (rank : ℤ) (p : List ℤ)
    (hgx : 0 < B.gx) (hgy : 0 < B.gy) (hgz : 0 < B.gz)
    (hlen : p.length = B.ncells) (hrank : 0 ≤ rank) :
    ∀ m, m ≤ p.length →
      ((List.range m).foldl (clear_unknown_step B rank) p).length = p.length ∧
      ∀ i, ((List.range m).foldl (clear_unknown_step B rank) p).getD i (-1) =
        if i < m ∧ (∀ n ∈ full_shell_neigh B i, p.getD n (-1) ≠ rank) then -1
        else p.getD i (-1) := by
  intro m
  induction m with
  | zero =>
    intro _
    refine ⟨rfl, fun i => ?_⟩
    simp
  | succ m ih =>
    intro hm
    obtain ⟨ihlen, ihget⟩ := ih (Nat.le_of_succ_le hm)
    have hmlt : m < p.length := hm
    set q := (List.range m).foldl (clear_unknown_step B rank) p with hq
    have hstab : ∀ j, (q.getD j (-1) = rank ↔ p.getD j (-1) = rank) := by
      intro j
      rw [ihget j]
      by_cases hcase : j < m ∧ ∀ n ∈ full_shell_neigh B j, p.getD n (-1) ≠ rank
      · rw [if_pos hcase]
        have hjlen : j < p.length := lt_of_lt_of_le hcase.1 (le_of_lt hmlt)
        have hpj : p.getD j (-1) ≠ rank :=
          hcase.2 j (mem_full_shell_center B hgx hgy hgz j (hlen ▸ hjlen))
        constructor
        · intro hminus; exact absurd hminus.symm (by omega)
        · intro hp; exact absurd hp hpj
      · rw [if_neg hcase]
    have hcond : (∀ n ∈ full_shell_neigh B m, q.getD n (-1) ≠ rank) ↔
        (∀ n ∈ full_shell_neigh B m, p.getD n (-1) ≠ rank) := by
      constructor
      · intro h n hn hpn; exact h n hn ((hstab n).mpr hpn)
      · intro h n hn hqn; exact h n hn ((hstab n).mp hqn)
    rw [List.range_succ, List.foldl_append, List.foldl_cons, List.foldl_nil, ← hq]
    by_cases hcp : ∀ n ∈ full_shell_neigh B m, p.getD n (-1) ≠ rank
    · have hstep : clear_unknown_step B rank q m = q.set m (-1) := by
        rw [clear_unknown_step, if_pos (hcond.mpr hcp)]
      rw [hstep]
      refine ⟨by rw [List.length_set]; exact ihlen, fun i => ?_⟩
      by_cases him : i = m
      · subst him
        rw [getD_set_self q i (-1) (-1) (by rw [ihlen]; exact hmlt),
            if_pos ⟨Nat.lt_succ_self i, hcp⟩]
      · rw [getD_set_ne q m i (-1) (-1) (fun he => him he.symm), ihget i]
        by_cases hi : i < m ∧ ∀ n ∈ full_shell_neigh B i, p.getD n (-1) ≠ rank
        · rw [if_pos hi, if_pos ⟨Nat.lt_succ_of_lt hi.1, hi.2⟩]
        · rw [if_neg hi, if_neg ?_]
          intro hcon
          exact hi ⟨by omega, hcon.2⟩
    · have hstep : clear_unknown_step B rank q m = q := by
        rw [clear_unknown_step, if_neg ?_]
        intro hqc
        exact hcp (hcond.mp hqc)
      rw [hstep]
      refine ⟨ihlen, fun i => ?_⟩
      rw [ihget i]
      by_cases hi : i < m ∧ ∀ n ∈ full_shell_neigh B i, p.getD n (-1) ≠ rank
      · rw [if_pos hi, if_pos ⟨Nat.lt_succ_of_lt hi.1, hi.2⟩]
      · rw [if_neg hi, if_neg ?_]
        intro hcon
        rcases Nat.lt_succ_iff_lt_or_eq.mp hcon.1 with hlt | heq
        · exact hi ⟨hlt, hcon.2⟩
        · subst heq
          exact hcp hcon.2

/-- C6: Diffusion::clear_unknown_cell_ownership sets partition[i] to
UNKNOWN (-1) for exactly those cells i whose 27-cell full-shell
neighborhood (including i itself, periodically wrapped) contains no cell
owned by the calling rank, and leaves every other entry unchanged.  (The
sequential in-place loop is harmless: it only rewrites entries that were
already unowned, so later neighborhood tests see the same ownership.) -/
theorem clear_unknown_cell_ownership_correct (B : Gbox) (rank : ℤ)
    (p : List ℤ) (hgx : 0 < B.gx) (hgy : 0 < B.gy) (hgz : 0 < B.gz)
    (hlen : p.length = B.ncells) (hrank : 0 ≤ rank) :
    (clear_unknown_cell_ownership B rank p).length = p.length ∧
    ∀ i, i < p.length →
      (clear_unknown_cell_ownership B rank p).getD i (-1) =
        if ∀ n ∈ full_shell_neigh B i, p.getD n (-1) ≠ rank then -1
        else p.getD i (-1) := by
  obtain ⟨hl, hg⟩ := clear_unknown_fold_charact B rank p hgx hgy hgz hlen hrank
    p.length (le_refl _)
  refine ⟨hl, fun i hi => ?_⟩
  rw [clear_unknown_cell_ownership, hg i]
  by_cases hc : ∀ n ∈ full_shell_neigh B i, p.getD n (-1) ≠ rank
  · rw [if_pos ⟨hi, hc⟩, if_pos hc]
  · rw [if_neg (fun hcon => hc hcon.2), if_neg hc]

theorem clear_unknown_cell_ownership_correct_witness :
    (0 : ℕ) < 2 ∧ ((0 : ℕ) < 1 ∧ (0 : ℕ) < 1) ∧
    ([(0 : ℤ), 5].length = Gbox.ncells ⟨2, 1, 1⟩) ∧ (0 : ℤ) ≤ 0 ∧ (1 : ℕ) < 2 ∧
    (clear_unknown_cell_ownership ⟨2, 1, 1⟩ 0 [(0 : ℤ), 5]).getD 1 (-1) =
      (if ∀ n ∈ full_shell_neigh ⟨2, 1, 1⟩ 1, [(0 : ℤ), 5].getD n (-1) ≠ 0 then -1
       else [(0 : ℤ), 5].getD 1 (-1)) := by
  refine ⟨by decide, ⟨by decide, by decide⟩, by decide, by decide, by decide, ?_⟩
  exact (clear_unknown_cell_ownership_correct ⟨2, 1, 1⟩ 0 [(0 : ℤ), 5]
    (by decide) (by decide) (by decide) (by decide) (by decide)).2 1 (by decide)

/-! ## C1: the return value of Diffusion::repartition -/

theorem compute_send_volume_nil (load : ℚ) : compute_send_volume load [] = [] := by
  unfold compute_send_volume
  dsimp only
  split <;> rfl

/-- C1 amended: Diffusion::repartition returns true unconditionally
(diffusion.cpp:391), whether or not any cell changed owner; callers must
always treat the partition as changed. -/
theorem diffusion_repartition_always_true (B : Gbox) (rank : ℤ) (nprocs : ℕ)
    (st : DiffState) (weights neighloads : List ℚ)
    (received_cells : List (List (List ℤ)))
    (received_neigh : List (List NeighSend)) :
    (diffusion_repartition B rank nprocs st weights neighloads
      received_cells received_neigh).2 = true := rfl

/-- C1 counterexample: on a single rank (2 x 2 x 2 box, uniform weights)
repartition moves no cell -- the partition vector after the call equals the
one before -- yet the call still returns true, so the returned boolean is
not "true iff the partition changed". -/
theorem diffusion_repartition_noop_returns_true :
    (diffusion_repartition B222 0 1 (diffusion_construct B222 0 1)
      (List.replicate 8 1) [] [] []).1.partition
      = (diffusion_construct B222 0 1).partition ∧
    (diffusion_repartition B222 0 1 (diffusion_construct B222 0 1)
      (List.replicate 8 1) [] [] []).2 = true := by
  constructor
  · simp only [diffusion_repartition, compute_send_volume_nil]
    decide
  · rfl

/-! ## Reinit infrastructure: fold, association-list and uniqueness lemmas -/

theorem foldl_preserve {σ α : Type} (P : σ → Prop) (f : σ → α → σ) :
    ∀ (l : List α) (s : σ), P s → (∀ t a, a ∈ l → P t → P (f t a)) →
      P (l.foldl f s) := by
  intro l
  induction l with
  | nil => intro s h _; exact h
  | cons a t ih =>
    intro s h hstep
    exact ih (f s a) (hstep s a (List.mem_cons_self a t) h)
      (fun u b hb hu => hstep u b (List.mem_cons_of_mem a hb) hu)

theorem mem_enumIdx_fst {α : Type} : ∀ (l : List α) (s : ℕ) (x : α × ℕ),
    x ∈ enumIdx l s → x.1 ∈ l := by
  intro l
  induction l with
  | nil => intro s x h; exact absurd h (List.not_mem_nil x)
  | cons a t ih =>
    intro s x h
    rcases List.mem_cons.mp h with he | ht
    · rw [he]; exact List.mem_cons_self a t
    · exact List.mem_cons_of_mem a (ih (s + 1) x ht)

theorem enumIdx_append {α : Type} : ∀ (l₁ l₂ : List α) (s : ℕ),
    enumIdx (l₁ ++ l₂) s = enumIdx l₁ s ++ enumIdx l₂ (s + l₁.length) := by
  intro l₁
  induction l₁ with
  | nil => intro l₂ s; simp [enumIdx]
  | cons a t ih =>
    intro l₂ s
    show (a, s) :: enumIdx (t ++ l₂) (s + 1) = ((a, s) :: enumIdx t (s + 1)) ++ _
    rw [ih, List.cons_append, List.length_cons]
    congr 3
    omega

theorem alookup_cons (a : ℕ × ℕ) (m : List (ℕ × ℕ)) (k : ℕ) :
    alookup (a :: m) k = if a.1 = k then some a.2 else alookup m k := by
  by_cases h : a.1 = k
  · rw [alookup, List.find?_cons_of_pos _ (by simp [h]), if_pos h]
    rfl
  · rw [alookup, List.find?_cons_of_neg _ (by simp [h]), if_neg h]
    rfl

theorem alookup_enumIdx : ∀ (l : List ℕ) (s k : ℕ),
    alookup (enumIdx l s) k = if k ∈ l then some (s + l.indexOf k) else none := by
  intro l
  induction l with
  | nil => intro s k; simp [enumIdx, alookup]
  | cons a t ih =>
    intro s k
    show alookup ((a, s) :: enumIdx t (s + 1)) k = _
    rw [alookup_cons]
    by_cases h : a = k
    · subst h
      rw [if_pos rfl, if_pos (List.mem_cons_self a t), List.indexOf_cons_self]
      rw [Nat.add_zero]
    · rw [if_neg h, ih]
      by_cases hk : k ∈ t
      · rw [if_pos hk, if_pos (List.mem_cons_of_mem a hk),
            List.indexOf_cons_ne t (fun he => h he)]
        congr 1
        omega
      · rw [if_neg hk, if_neg ?_]
        intro hc
        rcases List.mem_cons.mp hc with he | ht
        · exact h he.symm
        · exact hk ht

theorem alookup_enumIdx_mem (l : List ℕ) (k : ℕ) (h : k ∈ l) :
    alookup (enumIdx l 0) k = some (l.indexOf k) := by
  rw [alookup_enumIdx, if_pos h, Nat.zero_add]

theorem alookup_enumIdx_none_iff (l : List ℕ) (s k : ℕ) :
    alookup (enumIdx l s) k = none ↔ k ∉ l := by
  rw [alookup_enumIdx]
  by_cases h : k ∈ l
  · simp [h]
  · simp [h]

theorem mem_push_back_unique {α : Type} [DecidableEq α] (v : List α) (a x : α) :
    x ∈ push_back_unique v a ↔ x ∈ v ∨ x = a := by
  rw [push_back_unique]
  by_cases h : a ∈ v
  · rw [if_pos h]
    constructor
    · exact Or.inl
    · intro hx
      rcases hx with hv | he
      · exact hv
      · rw [he]; exact h
  · rw [if_neg h]
    simp [List.mem_append]

theorem nodup_push_back_unique {α : Type} [DecidableEq α] (v : List α) (a : α)
    (h : v.Nodup) : (push_back_unique v a).Nodup := by
  rw [push_back_unique]
  split
  · exact h
  · rename_i hnotmem
    rw [List.nodup_append]
    refine ⟨h, List.nodup_singleton a, ?_⟩
    intro x hx hxa
    rw [List.mem_singleton] at hxa
    subst hxa
    exact hnotmem hx

/-! ## Reinit phase 1: invariant -/

theorem r1step_inv (B : Gbox) (rank : ℤ) (init : Bool) (p : List ℤ)
    (m : ℕ) (s : R1State) (h : R1Inv rank p m s) :
    R1Inv rank p (m + 1) (r1step B rank init s m) := by
  obtain ⟨hlen, hlc, hg2l, hnd, hc⟩ := h
  rw [r1step]
  by_cases h1 : s.partition.getD m (-1) = rank
  · rw [if_pos h1]
    refine ⟨hlen, by simp [hlc], ?_, ?_, ?_⟩
    · show s.g2l ++ [(m, s.localCells)] = enumIdx (s.cells ++ [m]) 0
      rw [enumIdx_append, hg2l, hlc]
      congr 1
      show [(m, s.cells.length)] = enumIdx [m] (0 + s.cells.length)
      rw [Nat.zero_add]
      rfl
    · show (s.cells ++ [m]).Nodup
      rw [List.nodup_append]
      refine ⟨hnd, List.nodup_singleton m, ?_⟩
      intro x hx hxm
      rw [List.mem_singleton] at hxm
      subst hxm
      exact Nat.lt_irrefl x (hc x hx).1
    · intro c hcm
      rcases List.mem_append.mp hcm with hin | hm
      · exact ⟨Nat.lt_succ_of_lt (hc c hin).1, (hc c hin).2⟩
      · rw [List.mem_singleton] at hm
        subst hm
        exact ⟨Nat.lt_succ_self c, h1⟩
  · rw [if_neg h1]
    by_cases h2 : init = false ∧ s.partition.getD m (-1) ≠ -1
    · rw [if_pos h2]
      by_cases h3 : ∀ n ∈ full_shell_neigh B m, s.partition.getD n (-1) ≠ rank
      · rw [if_pos h3]
        refine ⟨by rw [List.length_set]; exact hlen, hlc, hg2l, hnd, ?_⟩
        intro c hcm
        obtain ⟨hlt, hq⟩ := hc c hcm
        have hne : m ≠ c := fun he => h1 (by rw [he]; exact hq)
        exact ⟨Nat.lt_succ_of_lt hlt,
          by rw [getD_set_ne s.partition m c (-1) (-1) hne]; exact hq⟩
      · rw [if_neg h3]
        exact ⟨hlen, hlc, hg2l, hnd,
          fun c hcm => ⟨Nat.lt_succ_of_lt (hc c hcm).1, (hc c hcm).2⟩⟩
    · rw [if_neg h2]
      exact ⟨hlen, hlc, hg2l, hnd,
        fun c hcm => ⟨Nat.lt_succ_of_lt (hc c hcm).1, (hc c hcm).2⟩⟩

theorem r1_fold_inv (B : Gbox) (rank : ℤ) (init : Bool) (p : List ℤ) (m : ℕ) :
    R1Inv rank p m
      ((List.range m).foldl (r1step B rank init) ⟨p, [], [], 0⟩) := by
  induction m with
  | zero =>
    exact ⟨rfl, rfl, rfl, List.nodup_nil,
      fun c hc => absurd hc (List.not_mem_nil c)⟩
  | succ m ih =>
    rw [List.range_succ, List.foldl_append, List.foldl_cons, List.foldl_nil]
    exact r1step_inv B rank init p m _ ih

/-! ## Reinit phase 2: invariant -/

theorem r2border_inv (rank : ℤ) (part : List ℤ) (locals : List ℕ) (i : ℕ)
    (owner : ℤ) (s : R2State) (h : R2Inv rank part locals s) :
    R2Inv rank part locals (r2border i owner s) :=
  h

theorem r2ghost_inv (rank : ℤ) (part : List ℤ) (locals : List ℕ) (n : ℕ)
    (hn : part.getD n (-1) ≠ rank) (s : R2State)
    (h : R2Inv rank part locals s) :
    R2Inv rank part locals (r2ghost locals.length n s) := by
  obtain ⟨⟨gh, hgh, hghne⟩, hg2l, hnd, hcount, hE, hF, hG⟩ := h
  rw [r2ghost]
  by_cases hl : alookup s.g2l n = none
  · rw [if_pos hl]
    have hnotmem : n ∉ s.cells := by
      rw [hg2l, alookup_enumIdx_none_iff] at hl
      exact hl
    refine ⟨⟨gh ++ [n], ?_, ?_⟩, ?_, ?_, ?_, hE, hF, ?_⟩
    · show s.cells ++ [n] = locals ++ (gh ++ [n])
      rw [hgh, List.append_assoc]
    · intro g hg
      rcases List.mem_append.mp hg with hgo | hgn
      · exact hghne g hgo
      · rw [List.mem_singleton] at hgn
        rw [hgn]
        exact hn
    · show s.g2l ++ [(n, locals.length + s.ghostCells)] = enumIdx (s.cells ++ [n]) 0
      rw [enumIdx_append, hg2l, hcount]
      congr 1
      rw [Nat.zero_add]
      rfl
    · show (s.cells ++ [n]).Nodup
      rw [List.nodup_append]
      refine ⟨hnd, List.nodup_singleton n, ?_⟩
      intro x hx hxn
      rw [List.mem_singleton] at hxn
      subst hxn
      exact hnotmem hx
    · show locals.length + (s.ghostCells + 1) = (s.cells ++ [n]).length
      rw [List.length_append, List.length_singleton]
      omega
    · intro r
      refine ⟨fun g hg => ?_, (hG r).2⟩
      obtain ⟨hmem, hpr, hprne⟩ := (hG r).1 g hg
      exact ⟨List.mem_append_left _ hmem, hpr, hprne⟩
  · rw [if_neg hl]
    exact ⟨⟨gh, hgh, hghne⟩, hg2l, hnd, hcount, hE, hF, hG⟩

theorem r2ghost_mem (locals_len : ℕ) (n : ℕ) (s : R2State)
    (hg2l : s.g2l = enumIdx s.cells 0) :
    n ∈ (r2ghost locals_len n s).cells := by
  rw [r2ghost]
  by_cases hl : alookup s.g2l n = none
  · rw [if_pos hl]
    exact List.mem_append_right _ (List.mem_singleton_self n)
  · rw [if_neg hl]
    rw [hg2l, alookup_enumIdx_none_iff] at hl
    exact Decidable.not_not.mp hl

theorem r2ghost_cells_g2l (locals_len : ℕ) (n : ℕ) (s : R2State) :
    ((r2ghost locals_len n s).g2l = s.g2l ∧
      (r2ghost locals_len n s).cells = s.cells) ∨
    ((r2ghost locals_len n s).g2l = s.g2l ++ [(n, locals_len + s.ghostCells)] ∧
      (r2ghost locals_len n s).cells = s.cells ++ [n]) := by
  rw [r2ghost]
  by_cases hl : alookup s.g2l n = none
  · rw [if_pos hl]
    exact Or.inr ⟨rfl, rfl⟩
  · rw [if_neg hl]
    exact Or.inl ⟨rfl, rfl⟩

theorem updT_self (t : ℤ → ExDesc) (r : ℤ) (f : ExDesc → ExDesc) :
    updT t r f r = f (t r) := by
  rw [updT, if_pos rfl]

theorem updT_ne (t : ℤ → ExDesc) (r x : ℤ) (f : ExDesc → ExDesc)
    (h : x ≠ r) : updT t r f x = t x := by
  rw [updT, if_neg h]

theorem r2desc_inv (rank : ℤ) (part : List ℤ) (locals : List ℕ)
    (owner : ℤ) (n c : ℕ) (howner : part.getD n (-1) = owner)
    (hne : owner ≠ rank) (hc : c ∈ locals) (s : R2State)
    (hmem : n ∈ s.cells) (h : R2Inv rank part locals s) :
    R2Inv rank part locals (r2desc owner n c s) := by
  obtain ⟨hA, hg2l, hnd, hcount, hE, hF, hG⟩ := h
  rw [r2desc]
  by_cases hdest : (s.tmp owner).dest = -1
  · rw [if_pos hdest]
    refine ⟨hA, hg2l, hnd, hcount, fun r => ?_, fun r => ?_, fun r => ?_⟩
    · dsimp only
      by_cases hr : r = owner
      · subst hr
        rw [updT_self, updT_self]
        exact Or.inr rfl
      · rw [updT_ne _ _ _ _ hr, updT_ne _ _ _ _ hr]
        exact hE r
    · dsimp only
      by_cases hr : r = owner
      · subst hr
        rw [updT_self, updT_self]
        refine ⟨fun x hx => ?_, nodup_push_back_unique _ _ (hF r).2⟩
        rcases (mem_push_back_unique _ _ _).mp hx with hold | hxc
        · exact (hF r).1 x hold
        · rw [hxc]; exact hc
      · rw [updT_ne _ _ _ _ hr, updT_ne _ _ _ _ hr]
        exact hF r
    · dsimp only
      by_cases hr : r = owner
      · subst hr
        rw [updT_self, updT_self]
        refine ⟨fun g hg => ?_, nodup_push_back_unique _ _ (hG r).2⟩
        rcases (mem_push_back_unique _ _ _).mp hg with hold | hgn
        · exact (hG r).1 g hold
        · rw [hgn]
          exact ⟨hmem, howner, by rw [howner]; exact hne⟩
      · rw [updT_ne _ _ _ _ hr, updT_ne _ _ _ _ hr]
        exact hG r
  · rw [if_neg hdest]
    refine ⟨hA, hg2l, hnd, hcount, fun r => ?_, fun r => ?_, fun r => ?_⟩
    · dsimp only
      by_cases hr : r = owner
      · subst hr
        rw [updT_self]
        rcases hE r with he | he
        · exact absurd he hdest
        · exact Or.inr he
      · rw [updT_ne _ _ _ _ hr]
        exact hE r
    · dsimp only
      by_cases hr : r = owner
      · subst hr
        rw [updT_self]
        refine ⟨fun x hx => ?_, nodup_push_back_unique _ _ (hF r).2⟩
        rcases (mem_push_back_unique _ _ _).mp hx with hold | hxc
        · exact (hF r).1 x hold
        · rw [hxc]; exact hc
      · rw [updT_ne _ _ _ _ hr]
        exact hF r
    · dsimp only
      by_cases hr : r = owner
      · subst hr
        rw [updT_self]
        refine ⟨fun g hg => ?_, nodup_push_back_unique _ _ (hG r).2⟩
        rcases (mem_push_back_unique _ _ _).mp hg with hold | hgn
        · exact (hG r).1 g hold
        · rw [hgn]
          exact ⟨hmem, howner, by rw [howner]; exact hne⟩
      · rw [updT_ne _ _ _ _ hr]
        exact hG r

theorem r2inner_inv (rank : ℤ) (part : List ℤ) (locals : List ℕ)
    (i : ℕ) (c : ℕ) (hc : c ∈ locals) (s : R2State) (n : ℕ)
    (h : R2Inv rank part locals s) :
    R2Inv rank part locals (r2inner rank part locals.length i c s n) := by
  rw [r2inner]
  by_cases ho : part.getD n (-1) = rank
  · rw [if_pos ho]
    exact h
  · rw [if_neg ho]
    have h1 := r2border_inv rank part locals i (part.getD n (-1)) s h
    have h2 := r2ghost_inv rank part locals n ho _ h1
    have hmem := r2ghost_mem locals.length n (r2border i (part.getD n (-1)) s)
      h1.2.1
    exact r2desc_inv rank part locals (part.getD n (-1)) n c rfl ho hc _ hmem h2

theorem r2_fold_inv (B : Gbox) (rank : ℤ) (part : List ℤ) (locals : List ℕ)
    (g2l0 : List (ℕ × ℕ)) (hg : g2l0 = enumIdx locals 0)
    (lc : ℕ) (hlc : lc = locals.length) (hnodup : locals.Nodup) :
    R2Inv rank part locals
      ((enumIdx locals 0).foldl
        (fun s ci => (full_shell_neigh_without_center B ci.1).foldl
          (r2inner rank part lc ci.2 ci.1) s)
        ⟨locals, g2l0, 0, [], fun _ => [], [], fun _ => ExDesc.empty⟩) := by
  subst hg hlc
  apply foldl_preserve (R2Inv rank part locals)
  · refine ⟨⟨[], (List.append_nil locals).symm,
      fun g hg => absurd hg (List.not_mem_nil g)⟩, rfl, hnodup, ?_, ?_, ?_, ?_⟩
    · show locals.length + 0 = locals.length
      omega
    · intro r
      exact Or.inl rfl
    · intro r
      exact ⟨fun x hx => absurd hx (List.not_mem_nil x), List.nodup_nil⟩
    · intro r
      exact ⟨fun g hg => absurd hg (List.not_mem_nil g), List.nodup_nil⟩
  · intro t ci hci ht
    apply foldl_preserve (R2Inv rank part locals)
    · exact ht
    · intro u m _ hu
      exact r2inner_inv rank part locals ci.2 ci.1
        (mem_enumIdx_fst locals 0 ci hci) u m hu

theorem buildExchange_valid (rank : ℤ) (part : List ℤ) (locals : List ℕ)
    (nprocs : ℕ) (s : R2State) (h : R2Inv rank part locals s)
    (lc : ℕ) (hlceq : lc = locals.length)
    (hlocals : ∀ c ∈ locals, part.getD c (-1) = rank) :
    ∀ ed ∈ buildExchange nprocs s.tmp s.g2l,
      (∀ x ∈ ed.send, x < lc) ∧
      (∀ x ∈ ed.recv, lc ≤ x ∧ x < lc + s.ghostCells) ∧
      ed.send.Nodup ∧ ed.recv.Nodup := by
  subst hlceq
  obtain ⟨⟨gh, hgh, hghne⟩, hg2l, hnd, hcount, hE, hF, hG⟩ := h
  intro ed hed
  rw [buildExchange] at hed
  obtain ⟨r, hrmem, hfr⟩ := List.mem_filterMap.mp hed
  dsimp only at hfr
  by_cases hd : (s.tmp (r : ℤ)).dest = -1
  · rw [if_pos hd] at hfr
    exact absurd hfr (by simp)
  · rw [if_neg hd] at hfr
    have hed_eq := Option.some.inj hfr
    subst hed_eq
    dsimp only
    have hval : ∀ g ∈ s.cells, (alookup s.g2l g).getD 0 = s.cells.indexOf g := by
      intro g hgmem
      rw [hg2l, alookup_enumIdx_mem s.cells g hgmem]
      rfl
    have hsendsub : ∀ g ∈ (s.tmp (r : ℤ)).send, g ∈ s.cells := by
      intro g hgm
      rw [hgh]
      exact List.mem_append_left gh ((hF (r : ℤ)).1 g hgm)
    have hrecvsub : ∀ g ∈ (s.tmp (r : ℤ)).recv, g ∈ s.cells :=
      fun g hgm => ((hG (r : ℤ)).1 g hgm).1
    refine ⟨?_, ?_, ?_, ?_⟩
    · intro x hx
      rw [List.mem_map] at hx
      obtain ⟨g, hgs, hgx⟩ := hx
      rw [List.mem_insertionSort] at hgs
      have hgl : g ∈ locals := (hF (r : ℤ)).1 g hgs
      have hgc : g ∈ s.cells := by
        rw [hgh]; exact List.mem_append_left gh hgl
      rw [← hgx, hval g hgc, hgh, List.indexOf_append_of_mem hgl]
      exact List.indexOf_lt_length.mpr hgl
    · intro x hx
      rw [List.mem_map] at hx
      obtain ⟨g, hgs, hgx⟩ := hx
      rw [List.mem_insertionSort] at hgs
      obtain ⟨hgc, hgr, hgne⟩ := (hG (r : ℤ)).1 g hgs
      have hgnl : g ∉ locals := fun hl => hgne (hlocals g hl)
      constructor
      · rw [← hgx, hval g hgc, hgh, List.indexOf_append_of_not_mem hgnl]
        exact Nat.le_add_right _ _
      · rw [← hgx, hval g hgc]
        have hlt := List.indexOf_lt_length.mpr hgc
        omega
    · have hnsort : (List.insertionSort (· ≤ ·) (s.tmp (r : ℤ)).send).Nodup :=
        ((List.perm_insertionSort (· ≤ ·) _).nodup_iff).mpr (hF (r : ℤ)).2
      apply List.Nodup.map_on ?_ hnsort
      intro x hxm y hym hxy
      rw [List.mem_insertionSort] at hxm hym
      have hxc : x ∈ s.cells := hsendsub x hxm
      have hyc : y ∈ s.cells := hsendsub y hym
      rw [hval x hxc, hval y hyc] at hxy
      exact (List.indexOf_inj hxc hyc).mp hxy
    · have hnsort : (List.insertionSort (· ≤ ·) (s.tmp (r : ℤ)).recv).Nodup :=
        ((List.perm_insertionSort (· ≤ ·) _).nodup_iff).mpr (hG (r : ℤ)).2
      apply List.Nodup.map_on ?_ hnsort
      intro x hxm y hym hxy
      rw [List.mem_insertionSort] at hxm hym
      have hxc : x ∈ s.cells := hrecvsub x hxm
      have hyc : y ∈ s.cells := hrecvsub y hym
      rw [hval x hxc, hval y hyc] at hxy
      exact (List.indexOf_inj hxc hyc).mp hxy

theorem buildExchange_order (rank : ℤ) (part : List ℤ) (locals : List ℕ)
    (nprocs : ℕ) (s : R2State) (h : R2Inv rank part locals s) :
    List.Pairwise (fun a b : ExDesc => a.dest < b.dest)
      (buildExchange nprocs s.tmp s.g2l) ∧
    ∀ ed ∈ buildExchange nprocs s.tmp s.g2l, ∃ gs gr : List ℕ,
      List.Sorted (· ≤ ·) gs ∧ List.Sorted (· ≤ ·) gr ∧
      ed.send = gs.map (fun g => (alookup s.g2l g).getD 0) ∧
      ed.recv = gr.map (fun g => (alookup s.g2l g).getD 0) := by
  obtain ⟨hA, hg2l, hnd, hcount, hE, hF, hG⟩ := h
  constructor
  · rw [buildExchange, List.pairwise_filterMap]
    apply List.Pairwise.imp ?_ (List.pairwise_lt_range nprocs)
    intro a b hab x hx y hy
    dsimp only at hx hy
    by_cases hda : (s.tmp (a : ℤ)).dest = -1
    · rw [if_pos hda] at hx
      exact absurd (Option.mem_def.mp hx) (by simp)
    by_cases hdb : (s.tmp (b : ℤ)).dest = -1
    · rw [if_pos hdb] at hy
      exact absurd (Option.mem_def.mp hy) (by simp)
    rw [if_neg hda] at hx
    rw [if_neg hdb] at hy
    have hxe := (Option.some.inj (Option.mem_def.mp hx).symm)
    have hye := (Option.some.inj (Option.mem_def.mp hy).symm)
    have hxa : x.dest = (a : ℤ) := by
      rw [hxe]
      rcases hE (a : ℤ) with hl | hr
      · exact absurd hl hda
      · exact hr
    have hyb : y.dest = (b : ℤ) := by
      rw [hye]
      rcases hE (b : ℤ) with hl | hr
      · exact absurd hl hdb
      · exact hr
    rw [hxa, hyb]
    exact_mod_cast hab
  · intro ed hed
    rw [buildExchange] at hed
    obtain ⟨r, hrmem, hfr⟩ := List.mem_filterMap.mp hed
    dsimp only at hfr
    by_cases hd : (s.tmp (r : ℤ)).dest = -1
    · rw [if_pos hd] at hfr
      exact absurd hfr (by simp)
    · rw [if_neg hd] at hfr
      have hed_eq := Option.some.inj hfr
      subst hed_eq
      refine ⟨List.insertionSort (· ≤ ·) (s.tmp (r : ℤ)).send,
        List.insertionSort (· ≤ ·) (s.tmp (r : ℤ)).recv,
        List.sorted_insertionSort (· ≤ ·) _,
        List.sorted_insertionSort (· ≤ ·) _, rfl, rfl⟩

/-- C5: after reinit (run both at construction and after every repartition
round), every exchange descriptor has all send indices in [0, n_local),
all recv indices in [n_local, n_local + n_ghost), and no duplicate entries
within its send list nor within its recv list. -/
theorem diffusion_reinit_exchange_valid (B : Gbox) (rank : ℤ) (nprocs : ℕ)
    (init : Bool) (p : List ℤ) :
    ∀ ed ∈ (reinit B rank nprocs init p).exchangeVector,
      (∀ x ∈ ed.send, x < (reinit B rank nprocs init p).localCells) ∧
      (∀ x ∈ ed.recv, (reinit B rank nprocs init p).localCells ≤ x ∧
        x < (reinit B rank nprocs init p).localCells +
          (reinit B rank nprocs init p).ghostCells) ∧
      ed.send.Nodup ∧ ed.recv.Nodup := by
  intro ed hed
  obtain ⟨hplen, hlc, hg2l1, hnd1, hcells1⟩ := r1_fold_inv B rank init p p.length
  have h2 := r2_fold_inv B rank
    ((List.range p.length).foldl (r1step B rank init) ⟨p, [], [], 0⟩).partition
    ((List.range p.length).foldl (r1step B rank init) ⟨p, [], [], 0⟩).cells
    ((List.range p.length).foldl (r1step B rank init) ⟨p, [], [], 0⟩).g2l
    hg2l1
    ((List.range p.length).foldl (r1step B rank init) ⟨p, [], [], 0⟩).localCells
    hlc hnd1
  exact buildExchange_valid rank _ _ nprocs _ h2
    ((List.range p.length).foldl (r1step B rank init) ⟨p, [], [], 0⟩).localCells
    hlc (fun c hc => (hcells1 c hc).2) ed hed

/-- C4: after reinit the exchange descriptors are emitted in strictly
ascending destination-rank order, and within each descriptor both the send
and the recv list are the image under the global-to-local map of a list
sorted by global cell index, so both communication endpoints pair the
cells identically. -/
theorem diffusion_reinit_descriptor_order (B : Gbox) (rank : ℤ) (nprocs : ℕ)
    (init : Bool) (p : List ℤ) :
    List.Pairwise (fun a b : ExDesc => a.dest < b.dest)
      (reinit B rank nprocs init p).exchangeVector ∧
    ∀ ed ∈ (reinit B rank nprocs init p).exchangeVector, ∃ gs gr : List ℕ,
      List.Sorted (· ≤ ·) gs ∧ List.Sorted (· ≤ ·) gr ∧
      ed.send = gs.map (fun g =>
        (alookup (reinit B rank nprocs init p).g2l g).getD 0) ∧
      ed.recv = gr.map (fun g =>
        (alookup (reinit B rank nprocs init p).g2l g).getD 0) := by
  obtain ⟨hplen, hlc, hg2l1, hnd1, hcells1⟩ := r1_fold_inv B rank init p p.length
  have h2 := r2_fold_inv B rank
    ((List.range p.length).foldl (r1step B rank init) ⟨p, [], [], 0⟩).partition
    ((List.range p.length).foldl (r1step B rank init) ⟨p, [], [], 0⟩).cells
    ((List.range p.length).foldl (r1step B rank init) ⟨p, [], [], 0⟩).g2l
    hg2l1
    ((List.range p.length).foldl (r1step B rank init) ⟨p, [], [], 0⟩).localCells
    hlc hnd1
  exact buildExchange_order rank _ _ nprocs _ h2

theorem diffusion_reinit_exchange_valid_witness :
    (⟨1, [7, 6, 5, 4], [0, 1, 2, 3]⟩ : ExDesc) ∈
      (reinit B222 0 2 false [0, 0, 0, 0, 1, 1, 1, 1]).exchangeVector ∧
    ((∀ x ∈ (⟨1, [7, 6, 5, 4], [0, 1, 2, 3]⟩ : ExDesc).send,
        x < (reinit B222 0 2 false [0, 0, 0, 0, 1, 1, 1, 1]).localCells) ∧
      (∀ x ∈ (⟨1, [7, 6, 5, 4], [0, 1, 2, 3]⟩ : ExDesc).recv,
        (reinit B222 0 2 false [0, 0, 0, 0, 1, 1, 1, 1]).localCells ≤ x ∧
        x < (reinit B222 0 2 false [0, 0, 0, 0, 1, 1, 1, 1]).localCells +
          (reinit B222 0 2 false [0, 0, 0, 0, 1, 1, 1, 1]).ghostCells) ∧
      (⟨1, [7, 6, 5, 4], [0, 1, 2, 3]⟩ : ExDesc).send.Nodup ∧
      (⟨1, [7, 6, 5, 4], [0, 1, 2, 3]⟩ : ExDesc).recv.Nodup) :=
  ⟨by decide, diffusion_reinit_exchange_valid B222 0 2 false
    [0, 0, 0, 0, 1, 1, 1, 1] ⟨1, [7, 6, 5, 4], [0, 1, 2, 3]⟩ (by decide)⟩

theorem diffusion_reinit_descriptor_order_witness :
    (⟨1, [7, 6, 5, 4], [0, 1, 2, 3]⟩ : ExDesc) ∈
      (reinit B222 0 2 false [0, 0, 0, 0, 1, 1, 1, 1]).exchangeVector ∧
    (∃ gs gr : List ℕ,
      List.Sorted (· ≤ ·) gs ∧ List.Sorted (· ≤ ·) gr ∧
      (⟨1, [7, 6, 5, 4], [0, 1, 2, 3]⟩ : ExDesc).send = gs.map (fun g =>
        (alookup (reinit B222 0 2 false [0, 0, 0, 0, 1, 1, 1, 1]).g2l g).getD 0) ∧
      (⟨1, [7, 6, 5, 4], [0, 1, 2, 3]⟩ : ExDesc).recv = gr.map (fun g =>
        (alookup (reinit B222 0 2 false [0, 0, 0, 0, 1, 1, 1, 1]).g2l g).getD 0)) :=
  ⟨by decide, (diffusion_reinit_descriptor_order B222 0 2 false
    [0, 0, 0, 0, 1, 1, 1, 1]).2 ⟨1, [7, 6, 5, 4], [0, 1, 2, 3]⟩ (by decide)⟩
